import Mathlib

/-!
Verification of the CabDriverAgent route-optimization system.

This file embeds, as Lean definitions, the parts of the repository that the
checked claims are about:

* the `haversine_distance` function (from the Python code block in
  `CAB_DRIVER_AGENT_PROJECT_PRESENTATION_DSA.md`), modelled over the reals;
* the client storage helpers of `lib/supabaseUtils.ts` (error fallbacks);
* the per-algorithm performance-stats cards of
  `frontend/components/StatusDisplay.tsx`;
* the asynchronous job lifecycle (jobs table plus the scheduler described in
  the specification; the backend scheduler source is not in the repository
  snapshot, so it is modelled from the specification);
* the shortest-path solvers (Dijkstra and A*) and the Nearest-Neighbor +
  2-opt tour optimizer, likewise modelled from the specification because the
  Python backend (`backend/routes/algorithms.py`) is absent from the
  snapshot.

Definitions come first, then the theorems settling the claims.
-/

namespace CabAgent

/-! ## DistanceMetric: haversine (from the source code block)

The Python source (presentation document, `haversine_distance`):

```python
R = 6371
lat1_rad = math.radians(lat1)
...
dlat = lat2_rad - lat1_rad
dlon = lon2_rad - lon1_rad
a = math.sin(dlat/2)**2 + math.cos(lat1_rad) * math.cos(lat2_rad) * math.sin(dlon/2)**2
c = 2 * math.asin(math.sqrt(a))
return R * c
```

Note the source applies `math.asin` directly to `math.sqrt(a)` with no
clamping of the argument. We model the floating-point reals by `ℝ`.
-/

/-- The source helper `math.radians`: degrees to radians. -/
noncomputable def radians (x : ℝ) : ℝ := x * Real.pi / 180

/-- The intermediate value `a` of the source `haversine_distance`. -/
noncomputable def hav_a (lat1 lon1 lat2 lon2 : ℝ) : ℝ :=
  Real.sin ((radians lat2 - radians lat1) / 2) ^ 2 +
    Real.cos (radians lat1) * Real.cos (radians lat2) *
      Real.sin ((radians lon2 - radians lon1) / 2) ^ 2

/-- The argument handed to the inverse-trigonometric step (`math.asin`) by the
source: `math.sqrt(a)`, with no clamping applied. -/
noncomputable def asinArgument (lat1 lon1 lat2 lon2 : ℝ) : ℝ :=
  Real.sqrt (hav_a lat1 lon1 lat2 lon2)

/-- The source `haversine_distance`, over `ℝ` (where `Real.arcsin` is the
mathematical inverse sine). -/
noncomputable def haversine_distance (lat1 lon1 lat2 lon2 : ℝ) : ℝ :=
  6371 * (2 * Real.arcsin (asinArgument lat1 lon1 lat2 lon2))

/-- Modelled from the spec: the clamping step the specification requires
("Clamp the inner argument of the inverse trigonometric step to [-1, 1]
before use"), which the source code block does not perform. -/
def specClamp (x : ℝ) : ℝ := max (-1) (min 1 x)

/-! ## Client storage helpers (`lib/supabaseUtils.ts`)

Each helper wraps one Supabase call in `try`/`catch`; the underlying call
either yields data or an error.  We model the outcome of the underlying call
as an `Except` value, and each helper as the function from that outcome to
the value it returns to its caller.  A JSON object is modelled as an
association list, so the empty object is `[]`. -/

/-- A JSON object, as an association list of key/value pairs. -/
def JsonObj : Type := List (String × String)

/-- A storage-layer error (the `error` the Supabase client reports or the
exception the `await` raises). -/
structure StorageError where
  message : String

/-- The helper `saveRouteCalculation`: on a successful insert it returns the data, on
any error the `catch` block returns `null` (modelled `none`). -/
def saveRouteCalculation {D : Type} (outcome : Except StorageError D) : Option D :=
  match outcome with
  | .ok data => some data
  | .error _ => none

/-- The helper `getRouteHistory`: on success it returns the selected rows, on any error
the `catch` block returns `[]`. -/
def getRouteHistory {Row : Type} (outcome : Except StorageError (List Row)) : List Row :=
  match outcome with
  | .ok data => data
  | .error _ => []

/-- The helper `getUserPreferences`: on success it returns `data?.preferences || {}`
(the stored preferences object, or the empty object when the row has none),
on any error the `catch` block returns `{}`. -/
def getUserPreferences (outcome : Except StorageError (Option JsonObj)) : JsonObj :=
  match outcome with
  | .ok (some prefs) => prefs
  | .ok none => []
  | .error _ => []

/-! ## StatusDisplay performance-stats cards (`StatusDisplay.tsx`)

The `stats` tab renders one card for the current algorithm (whose Time row
shows `route.eta_min`) and, when comparison stats are available, one card
each for Dijkstra and A*.  In those two cards the Time row is rendered from
`((stats.distance_km || 0) * 2)` minutes. -/

/-- The `AlgorithmStats` shape received by `StatusDisplay` (all fields
optional in the TypeScript interface). -/
structure AlgorithmStats where
  steps_count : Option Nat
  distance_km : Option ℚ
  execution_time_ms : Option ℚ

/-- The fields of the route response that the stats tab reads. -/
structure RouteResponse where
  distance_km : Option ℚ
  eta_min : Option ℚ
  execution_time_ms : Option ℚ

/-- The numbers displayed by one per-algorithm comparison card. -/
structure StatsCardView where
  distanceKm : Option ℚ
  timeMin : ℚ
  executionMs : Option ℚ

/-- The whole stats tab: the displayed values of the current-algorithm card
and of the Dijkstra and A* comparison cards. -/
structure StatsTabView where
  currentDistanceKm : Option ℚ
  currentTimeMin : Option ℚ
  dijkstraCard : StatsCardView
  astarCard : StatsCardView

/-- One per-algorithm comparison card, as rendered by `StatusDisplay`:
Distance shows `stats.distance_km`, Time shows `(stats.distance_km || 0) * 2`
minutes, Execution shows `stats.execution_time_ms`. -/
def renderStatsCard (stats : AlgorithmStats) : StatsCardView :=
  { distanceKm := stats.distance_km
    timeMin := stats.distance_km.getD 0 * 2
    executionMs := stats.execution_time_ms }

/-- The stats tab of `StatusDisplay`: the current-algorithm card reads
`route.distance_km` and `route.eta_min`; the comparison cards are rendered
from the per-algorithm stats alone. -/
def renderStatsTab (route : RouteResponse) (dijkstraStats astarStats : AlgorithmStats) :
    StatsTabView :=
  { currentDistanceKm := route.distance_km
    currentTimeMin := route.eta_min
    dijkstraCard := renderStatsCard dijkstraStats
    astarCard := renderStatsCard astarStats }

/-! ## JobScheduler (modelled from the spec)

The repository snapshot holds the `jobs` table declaration
(`job_id, user_id, status, params, progress, result, ...`, with
`status ∈ queued|running|completed|failed` and `progress int default 0`) but
not the backend scheduler code, so the scheduler is modelled from the
specification: `submit` creates a `queued` job with progress `0`; a worker
claims a queued job (`queued → running`), updates `progress` monotonically
within `0..100` while running, and finishes by `completed` (progress `100`,
result stored) or `failed`; no transition leaves a terminal state. -/

inductive JobStatus where
  | queued
  | running
  | completed
  | failed
deriving DecidableEq, Repr

/-- A row of the `jobs` table (the fields the claims are about). -/
structure Job (P R : Type) where
  userId : String
  status : JobStatus
  params : P
  progress : Nat
  result : Option R
deriving DecidableEq

/-- A job is in a terminal state once completed or failed. -/
def Job.terminal {P R : Type} (j : Job P R) : Prop :=
  j.status = JobStatus.completed ∨ j.status = JobStatus.failed

instance {P R : Type} (j : Job P R) : Decidable j.terminal := by
  unfold Job.terminal
  infer_instance

/-- The job store keyed by `jobId` (spec: a key-value store `jobId → Job`). -/
def JobStore (P R : Type) : Type := String → Option (Job P R)

/-- Modelled from the spec: `submit(request)` creates a Job with
`status=queued`, `progress=0`, persists the request params, and returns the
`jobId` to the caller; no route computation happens, so the stored result is
empty. -/
def submit {P R : Type} (store : JobStore P R) (jid : String) (uid : String) (req : P) :
    String × JobStore P R :=
  (jid, fun j => if j = jid then
      some { userId := uid
             status := JobStatus.queued
             params := req
             progress := 0
             result := none }
    else store j)

/-- Modelled from the spec: the transitions the scheduler state machine may
perform on a job record.  A worker claims a queued job (`queued → running`),
updates progress monotonically within `0..100` while running, and ends the
job by storing a result with `status=completed, progress=100` or by marking
it `failed`. -/
inductive JobStep {P R : Type} : Job P R → Job P R → Prop where
  | claim (j : Job P R) :
      j.status = JobStatus.queued →
      JobStep j { j with status := JobStatus.running }
  | tick (j : Job P R) (p : Nat) :
      j.status = JobStatus.running →
      j.progress ≤ p → p ≤ 100 →
      JobStep j { j with progress := p }
  | complete (j : Job P R) (r : R) :
      j.status = JobStatus.running →
      JobStep j { j with status := JobStatus.completed, progress := 100, result := some r }
  | fail (j : Job P R) :
      j.status = JobStatus.running →
      JobStep j { j with status := JobStatus.failed }

/-! ## TourOptimizer (modelled from the spec)

`backend/routes/algorithms.py` (`nn_plus_2opt`) is absent from the snapshot;
the optimizer is modelled from the specification: a complete pairwise
distance matrix over the waypoints is given; Nearest-Neighbor starts at the
pickup, repeatedly moves to the nearest unvisited stop (ties broken by
lowest index, i.e. the earliest stop in the list), and appends the dropoff
as the fixed final leg; 2-opt then repeatedly reverses a segment of the
intermediate part whenever doing so shrinks the total tour length by more
than a small epsilon, until no such pair remains or the iteration budget is
exhausted. -/

/-- Total length of a tour, as the sum of the matrix distances between
consecutive waypoints. -/
def tourLen {m : Nat} (d : Fin m → Fin m → ℚ) : List (Fin m) → ℚ
  | [] => 0
  | [_] => 0
  | a :: b :: rest => d a b + tourLen d (b :: rest)

/-- The nearest stop to `cur` among `stops` (ties broken by the earliest
stop in the list). -/
def nearestStop {m : Nat} (d : Fin m → Fin m → ℚ) (cur : Fin m) :
    List (Fin m) → Option (Fin m)
  | [] => none
  | x :: xs =>
    match nearestStop d cur xs with
    | none => some x
    | some y => if d cur x ≤ d cur y then some x else some y

/-- Nearest-Neighbor construction: starting at `cur`, repeatedly move to the
nearest unvisited stop until all stops are visited.  Returns the visiting
order of the stops. -/
def nnOrder {m : Nat} (d : Fin m → Fin m → ℚ) (cur : Fin m) (stops : List (Fin m)) :
    List (Fin m) :=
  match h : nearestStop d cur stops with
  | none => []
  | some z => z :: nnOrder d z (stops.erase z)
termination_by stops.length
decreasing_by
  have hz : z ∈ stops := by
    induction stops with
    | nil => simp [nearestStop] at h
    | cons x xs ih =>
      rw [nearestStop] at h
      cases hxs : nearestStop d cur xs with
      | none =>
        rw [hxs] at h
        simp only [Option.some.injEq] at h
        simp [← h]
      | some y =>
        rw [hxs] at h
        by_cases hle : d cur x ≤ d cur y
        · simp only [hle, if_pos, Option.some.injEq] at h
          simp [← h]
        · simp only [hle, if_neg, Option.some.injEq, not_false_iff] at h
          subst h
          have := ih hxs
          simp [this]
  calc (stops.erase z).length = stops.length - 1 := List.length_erase_of_mem hz
    _ < stops.length := by
        cases stops with
        | nil => simp at hz
        | cons a l => simp

/-- The Nearest-Neighbor tour: pickup, the NN ordering of the stops, then
the dropoff as the fixed final leg. -/
def nnTour {m : Nat} (d : Fin m → Fin m → ℚ) (pickup dropoff : Fin m)
    (stops : List (Fin m)) : List (Fin m) :=
  pickup :: nnOrder d pickup stops ++ [dropoff]

/-- Reversal of the segment of `l` between positions `i` and `j`
(inclusive). -/
def reverseSeg {α : Type} (l : List α) (i j : Nat) : List α :=
  l.take i ++ ((l.drop i).take (j + 1 - i)).reverse ++ l.drop (j + 1)

/-- All candidate position pairs `i < j` scanned by one 2-opt pass over the
intermediate part of the tour. -/
def segPairs (len : Nat) : List (Nat × Nat) :=
  (List.range len).flatMap fun i =>
    (List.range len).filterMap fun j => if i < j then some (i, j) else none

/-- One 2-opt scan over the intermediate part `mid` of the tour
`pickup :: mid ++ [dropoff]`: the first segment reversal that shrinks the
total tour length by more than `eps`, if any.  The fixed endpoints are never
reordered. -/
def findImprove {m : Nat} (d : Fin m → Fin m → ℚ) (pickup dropoff : Fin m) (eps : ℚ)
    (mid : List (Fin m)) : Option (List (Fin m)) :=
  (segPairs mid.length).findSome? fun ij =>
    let mid2 := reverseSeg mid ij.1 ij.2
    if tourLen d (pickup :: mid2 ++ [dropoff]) < tourLen d (pickup :: mid ++ [dropoff]) - eps
    then some mid2 else none

/-- The 2-opt improvement loop: keep applying improving segment reversals
until none remains or the iteration budget `fuel` is exhausted. -/
def twoOptLoop {m : Nat} (d : Fin m → Fin m → ℚ) (pickup dropoff : Fin m) (eps : ℚ) :
    Nat → List (Fin m) → List (Fin m)
  | 0, mid => mid
  | fuel + 1, mid =>
    match findImprove d pickup dropoff eps mid with
    | none => mid
    | some mid2 => twoOptLoop d pickup dropoff eps fuel mid2

/-- The optimizer `nn_plus_2opt`: Nearest-Neighbor construction followed by 2-opt
improvement of the stop ordering, with the pickup and dropoff fixed. -/
def nnPlus2opt {m : Nat} (d : Fin m → Fin m → ℚ) (pickup dropoff : Fin m)
    (stops : List (Fin m)) (eps : ℚ) (fuel : Nat) : List (Fin m) :=
  pickup :: twoOptLoop d pickup dropoff eps fuel (nnOrder d pickup stops) ++ [dropoff]

/-! ## GeoGraph and PathSolver (modelled from the spec)

`backend/routes/algorithms.py` (`dijkstra`, `astar`) is absent from the
snapshot; the solvers are modelled from the specification: nodes carry an
adjacency list of `(neighbor, weight)` pairs; the distance map starts at +∞
except the source (0); the frontier is the set of discovered, unexpanded
nodes; the solver repeatedly pops the unvisited frontier node of minimum
priority (ties broken by lowest node id) and relaxes its outgoing edges,
terminating when the frontier is empty.  Dijkstra's priority is `dist[u]`;
A* uses `dist[u] + h(u)` with the heuristic `h`.  One `AlgorithmStep` trace
entry is appended per node expansion, so the trace length is the expansion
count. -/

/-- The in-memory weighted graph: `adj u` is the ordered list of
`(neighborId, weight)` pairs of the directed edges leaving `u`. -/
structure GeoGraph (n : Nat) where
  adj : Fin n → List (Fin n × ℚ)

/-- All edge weights are non-negative (required for Dijkstra/A*
correctness). -/
def GeoGraph.Nonneg {n : Nat} (g : GeoGraph n) : Prop :=
  ∀ u : Fin n, ∀ e ∈ g.adj u, 0 ≤ e.2

/-- A heuristic is consistent when it never drops by more than an edge's
weight across that edge. -/
def Consistent {n : Nat} (g : GeoGraph n) (h : Fin n → ℚ) : Prop :=
  ∀ u : Fin n, ∀ e ∈ g.adj u, h u ≤ e.2 + h e.1

/-- The proposition `IsWalkCost g u v c`: the graph has a directed walk from `u` to `v` of
total weight `c`. -/
inductive IsWalkCost {n : Nat} (g : GeoGraph n) : Fin n → Fin n → ℚ → Prop where
  | refl (u : Fin n) : IsWalkCost g u u 0
  | cons {u v t : Fin n} {w c : ℚ} :
      (v, w) ∈ g.adj u → IsWalkCost g v t c → IsWalkCost g u t (w + c)

/-- Node `t` is reachable from `s` when some walk joins them. -/
def Reachable {n : Nat} (g : GeoGraph n) (s t : Fin n) : Prop :=
  ∃ c : ℚ, IsWalkCost g s t c

/-- Solver state: the visited (expanded) set, the distance map (`⊤` is +∞),
and the number of node expansions so far (the length of the step trace). -/
structure SolverState (n : Nat) where
  visited : Finset (Fin n)
  dist : Fin n → WithTop ℚ
  steps : Nat

/-- The frontier: discovered (finite distance) but not yet expanded nodes,
in node-id order. -/
def frontierList {n : Nat} (st : SolverState n) : List (Fin n) :=
  (List.finRange n).filter fun v => v ∉ st.visited ∧ st.dist v ≠ ⊤

/-- The node of minimum key in the list; earlier elements win ties, so with
`frontierList` the tie-break is the lowest node id. -/
def argminKey {n : Nat} (key : Fin n → WithTop ℚ) : List (Fin n) → Option (Fin n)
  | [] => none
  | x :: xs =>
    match argminKey key xs with
    | none => some x
    | some y => if key x ≤ key y then some x else some y

/-- Fold a minimum over a list of candidate values. -/
def foldMin (init : WithTop ℚ) (l : List (WithTop ℚ)) : WithTop ℚ :=
  l.foldl min init

/-- Relaxation of all edges leaving `u`: each neighbor's distance becomes the
minimum of its current distance and `dist u + w` over the edges reaching
it. -/
def relaxed {n : Nat} (g : GeoGraph n) (u : Fin n) (dist : Fin n → WithTop ℚ) :
    Fin n → WithTop ℚ :=
  fun v =>
    foldMin (dist v) ((g.adj u).filterMap fun e =>
      if e.1 = v then some (dist u + (e.2 : WithTop ℚ)) else none)

/-- One solver iteration: pop the frontier node of minimum priority
`dist[u] + h(u)` (lowest id on ties), append its expansion to the trace, and
relax its outgoing edges; `none` when the frontier is empty. -/
def solverStep {n : Nat} (g : GeoGraph n) (h : Fin n → ℚ) (st : SolverState n) :
    Option (SolverState n) :=
  match argminKey (fun v => st.dist v + (h v : WithTop ℚ)) (frontierList st) with
  | none => none
  | some u =>
    some { visited := insert u st.visited
           dist := relaxed g u st.dist
           steps := st.steps + 1 }

/-- Run the solver for at most `fuel` iterations (the frontier empties within
`n` iterations, one per node expansion). -/
def runSolver {n : Nat} (g : GeoGraph n) (h : Fin n → ℚ) :
    Nat → SolverState n → SolverState n
  | 0, st => st
  | fuel + 1, st =>
    match solverStep g h st with
    | none => st
    | some st2 => runSolver g h fuel st2

/-- The initial state: distance map +∞ except the source (0), nothing
visited, empty trace. -/
def initState {n : Nat} (s : Fin n) : SolverState n :=
  { visited := ∅
    dist := fun v => if v = s then (0 : WithTop ℚ) else ⊤
    steps := 0 }

/-- The A* solver: best-first search with frontier priority
`dist[u] + h(u)`. -/
def astarRun {n : Nat} (g : GeoGraph n) (h : Fin n → ℚ) (s : Fin n) : SolverState n :=
  runSolver g h n (initState s)

/-- The Dijkstra solver: identical mechanics with priority `dist[u]` (the
zero heuristic). -/
def dijkstraRun {n : Nat} (g : GeoGraph n) (s : Fin n) : SolverState n :=
  astarRun g (fun _ => 0) s

/-- A sample queued job used to exercise the job-lifecycle theorems. -/
def jobQueued : Job Unit Unit :=
  { userId := "u_123"
    status := JobStatus.queued
    params := ()
    progress := 0
    result := none }

/-- The sample job after being claimed by a worker. -/
def jobRunning : Job Unit Unit := { jobQueued with status := JobStatus.running }

/-- The sample job after a progress update to 40. -/
def jobHalf : Job Unit Unit := { jobRunning with progress := 40 }

/-- The sample job after successful completion. -/
def jobDone : Job Unit Unit :=
  { jobHalf with status := JobStatus.completed, progress := 100, result := some () }

/-- The sample graph used to exercise the solver theorems:
`0 → 1` (weight 1), `1 → 2` (weight 2), node `2` a sink. -/
def gWitness : GeoGraph 3 where
  adj := fun u => if u = 0 then [(1, 1)] else if u = 1 then [(2, 2)] else []

/-! # Theorems -/

/-! ## Haversine properties (C7, C8) -/

/-- The squared sine is unchanged when the difference is flipped. -/
theorem sin_half_sub_sq_comm (x y : ℝ) :
    Real.sin ((x - y) / 2) ^ 2 = Real.sin ((y - x) / 2) ^ 2 := by
  rw [show (x - y) / 2 = -((y - x) / 2) by ring, Real.sin_neg]
  ring

/-- The intermediate value `a` of the source is symmetric in its two points. -/
theorem hav_a_comm (lat1 lon1 lat2 lon2 : ℝ) :
    hav_a lat1 lon1 lat2 lon2 = hav_a lat2 lon2 lat1 lon1 := by
  unfold hav_a
  rw [sin_half_sub_sq_comm (radians lat2) (radians lat1),
    sin_half_sub_sq_comm (radians lon2) (radians lon1)]
  ring

/-- C8: `haversine_distance` returns 0 for identical points, and is
symmetric: swapping the two input coordinate pairs leaves the result
unchanged. -/
theorem haversine_zero_self_and_symm :
    (∀ lat lon : ℝ, haversine_distance lat lon lat lon = 0) ∧
    (∀ lat1 lon1 lat2 lon2 : ℝ,
      haversine_distance lat1 lon1 lat2 lon2 = haversine_distance lat2 lon2 lat1 lon1) := by
  constructor
  · intro lat lon
    simp [haversine_distance, asinArgument, hav_a]
  · intro lat1 lon1 lat2 lon2
    unfold haversine_distance asinArgument
    rw [hav_a_comm]

/-- C7: at the antipodal input `(0°, 0°)`–`(0°, 180°)` the argument the
source hands to `math.asin` is exactly `1`, the boundary of the inverse
sine's domain; the source applies no clamping (`asinArgument` is a bare
`sqrt`), so any upward floating-point rounding of this value makes
`math.asin` raise a domain error, which is what the specified clamp to
`[-1, 1]` exists to prevent. -/
theorem asinArgument_antipodal_boundary : asinArgument 0 0 0 180 = 1 := by
  have h180 : radians 180 = Real.pi := by
    unfold radians
    rw [mul_comm, mul_div_assoc]
    norm_num
  have h0 : radians 0 = 0 := by
    unfold radians
    ring
  unfold asinArgument hav_a
  rw [h180, h0]
  norm_num [Real.sin_pi_div_two]

/-! ## Storage helpers (C9) and stats cards (C10) -/

/-- C9: the client storage helpers never propagate a storage error: whatever
the error and the row types, `getRouteHistory` returns the empty list,
`getUserPreferences` returns the empty object, and `saveRouteCalculation`
returns `null`. -/
theorem storage_helpers_swallow_errors :
    ∀ (Row D : Type) (err : StorageError),
      getRouteHistory (Except.error err : Except StorageError (List Row)) = [] ∧
      getUserPreferences (Except.error err) = [] ∧
      saveRouteCalculation (D := D) (Except.error err) = none :=
  fun _ _ _ => ⟨rfl, rfl, rfl⟩

/-- C10: in the performance-stats comparison cards, the displayed Time for
Dijkstra and for A* is exactly the algorithm's `distance_km` times 2 minutes
(a missing distance counting as 0), and it is independent of every measured
travel-time field: of the response's `eta_min` and `execution_time_ms` (the
cards ignore the route entirely) and of the stats' own
`execution_time_ms`/`steps_count`. -/
theorem stats_cards_time_is_distance_times_two :
    ∀ (route route2 : RouteResponse) (ds ast : AlgorithmStats)
      (sc : Option Nat) (ex : Option ℚ),
      (renderStatsTab route ds ast).dijkstraCard.timeMin = ds.distance_km.getD 0 * 2 ∧
      (renderStatsTab route ds ast).astarCard.timeMin = ast.distance_km.getD 0 * 2 ∧
      (renderStatsTab route ds ast).dijkstraCard = (renderStatsTab route2 ds ast).dijkstraCard ∧
      (renderStatsTab route ds ast).astarCard = (renderStatsTab route2 ds ast).astarCard ∧
      (renderStatsTab route ds ast).dijkstraCard.timeMin =
        (renderStatsTab route { ds with steps_count := sc, execution_time_ms := ex }
          ast).dijkstraCard.timeMin ∧
      (renderStatsTab route ds { ast with steps_count := sc, execution_time_ms := ex }
          ).astarCard.timeMin =
        (renderStatsTab route ds ast).astarCard.timeMin :=
  fun _ _ _ _ _ _ => ⟨rfl, rfl, rfl, rfl, rfl, rfl⟩

/-! ## Job lifecycle (C2, C3) -/

/-- Any scheduler transition out of a job state keeps the progress within
`0..100` and never decreases it. -/
theorem JobStep.progress_le {P R : Type} {j k : Job P R} (st : JobStep j k)
    (hj : j.progress ≤ 100) : j.progress ≤ k.progress ∧ k.progress ≤ 100 := by
  cases st with
  | claim hq => exact ⟨le_refl _, hj⟩
  | tick p hr hle hcap => exact ⟨hle, hcap⟩
  | complete r hr => exact ⟨hj, le_refl _⟩
  | fail hr => exact ⟨le_refl _, hj⟩

/-- Progress bounds propagate along any sequence of scheduler transitions. -/
theorem jobTrace_progress_le {P R : Type} {j k : Job P R}
    (tr : Relation.ReflTransGen (JobStep (P := P) (R := R)) j k)
    (hj : j.progress ≤ 100) : j.progress ≤ k.progress ∧ k.progress ≤ 100 := by
  induction tr with
  | refl => exact ⟨le_refl _, hj⟩
  | tail _ st ih =>
    rcases ih with ⟨h1, h2⟩
    rcases st.progress_le h2 with ⟨h3, h4⟩
    exact ⟨le_trans h1 h3, h4⟩

/-- C2: once a job is completed or failed, no scheduler transition applies
to it any more; and along any sequence of transitions of one job (hence
across any successive polls of it) the progress value, kept within `0..100`,
never decreases. -/
theorem job_terminal_frozen_and_progress_monotone {P R : Type} :
    (∀ j k : Job P R, j.terminal → ¬ JobStep j k) ∧
    (∀ j k : Job P R, j.progress ≤ 100 →
      Relation.ReflTransGen (JobStep (P := P) (R := R)) j k →
      j.progress ≤ k.progress) := by
  constructor
  · intro j k hterm hstep
    rcases hterm with hc | hf
    · cases hstep <;> simp_all
    · cases hstep <;> simp_all
  · intro j k hj tr
    exact (jobTrace_progress_le tr hj).1

/-- A concrete trace `queued → running → progress 40 → completed` of the
sample job. -/
theorem jobTrace_sample :
    Relation.ReflTransGen (JobStep (P := Unit) (R := Unit)) jobQueued jobDone :=
  Relation.ReflTransGen.refl.tail
      (JobStep.claim jobQueued rfl) |>.tail
      (JobStep.tick jobRunning 40 rfl (by decide) (by decide)) |>.tail
      (JobStep.complete jobHalf () rfl)

/-- Witness for C2: at the concrete completed job no transition applies, and
along the concrete trace the progress does not decrease. -/
theorem job_terminal_frozen_and_progress_monotone_witness :
    (¬ JobStep jobDone jobQueued) ∧ jobQueued.progress ≤ jobDone.progress :=
  ⟨(job_terminal_frozen_and_progress_monotone (P := Unit) (R := Unit)).1 jobDone jobQueued
      (Or.inl rfl),
    (job_terminal_frozen_and_progress_monotone (P := Unit) (R := Unit)).2 jobQueued jobDone
      (by decide) jobTrace_sample⟩

/-- C3: `submit` returns the given job id, stores under it a job with
`status=queued`, `progress=0`, the request params persisted and no result
computed yet, and touches no other key of the store. -/
theorem submit_creates_queued_job {P R : Type} :
    ∀ (store : JobStore P R) (jid uid : String) (req : P),
      (submit store jid uid req).1 = jid ∧
      (submit store jid uid req).2 jid =
        some { userId := uid
               status := JobStatus.queued
               params := req
               progress := 0
               result := none } ∧
      ∀ j : String, j = jid ∨ (submit store jid uid req).2 j = store j := by
  intro store jid uid req
  refine ⟨rfl, by simp [submit], ?_⟩
  intro j
  by_cases hj : j = jid
  · exact Or.inl hj
  · exact Or.inr (by simp [submit, hj])

/-! ## TourOptimizer (C5, C6) -/

/-- Whatever reversal `findImprove` returns was accepted only because it
shrinks the total tour length by more than `eps`. -/
theorem findImprove_improves {m : Nat} {d : Fin m → Fin m → ℚ} {pickup dropoff : Fin m}
    {eps : ℚ} {mid mid2 : List (Fin m)}
    (hfi : findImprove d pickup dropoff eps mid = some mid2) :
    tourLen d (pickup :: mid2 ++ [dropoff]) <
      tourLen d (pickup :: mid ++ [dropoff]) - eps := by
  unfold findImprove at hfi
  obtain ⟨ij, _, heq⟩ := List.exists_of_findSome?_eq_some hfi
  simp only at heq
  split at heq
  · cases heq
    assumption
  · cases heq

/-- The 2-opt loop never lengthens the tour: with a non-negative epsilon,
every accepted reversal strictly shrinks it. -/
theorem twoOptLoop_le {m : Nat} (d : Fin m → Fin m → ℚ) (pickup dropoff : Fin m)
    (eps : ℚ) (heps : 0 ≤ eps) :
    ∀ (fuel : Nat) (mid : List (Fin m)),
      tourLen d (pickup :: twoOptLoop d pickup dropoff eps fuel mid ++ [dropoff]) ≤
        tourLen d (pickup :: mid ++ [dropoff]) := by
  intro fuel
  induction fuel with
  | zero => intro mid; exact le_refl _
  | succ fuel ih =>
    intro mid
    rw [twoOptLoop]
    cases hfi : findImprove d pickup dropoff eps mid with
    | none => exact le_refl _
    | some mid2 =>
      have h1 := findImprove_improves hfi
      have h2 := ih mid2
      linarith

/-- C5: for every stop set with fixed pickup and dropoff endpoints (and any
non-negative acceptance epsilon and iteration budget), the tour produced by
Nearest-Neighbor construction followed by 2-opt improvement is no longer
than the Nearest-Neighbor tour alone. -/
theorem nnPlus2opt_le_nnTour {m : Nat} (d : Fin m → Fin m → ℚ) (pickup dropoff : Fin m)
    (stops : List (Fin m)) (eps : ℚ) (fuel : Nat) (heps : 0 ≤ eps) :
    tourLen d (nnPlus2opt d pickup dropoff stops eps fuel) ≤
      tourLen d (nnTour d pickup dropoff stops) :=
  twoOptLoop_le d pickup dropoff eps heps fuel (nnOrder d pickup stops)

/-- Witness for C5 on a concrete instance (two coincident stops between the
fixed endpoints, all-zero distances). -/
theorem nnPlus2opt_le_nnTour_witness :
    (0 : ℚ) ≤ 1 ∧
      tourLen (fun _ _ => 0) (nnPlus2opt (m := 3) (fun _ _ => 0) 0 2 [1, 1] 1 9) ≤
        tourLen (fun _ _ => 0) (nnTour (m := 3) (fun _ _ => 0) 0 2 [1, 1]) :=
  ⟨by decide, nnPlus2opt_le_nnTour (fun _ _ => 0) 0 2 [1, 1] 1 9 (by decide)⟩

/-- With a non-negative distance matrix every tour has non-negative
length. -/
theorem tourLen_nonneg {m : Nat} {d : Fin m → Fin m → ℚ} (hd : ∀ i j, 0 ≤ d i j) :
    ∀ l : List (Fin m), 0 ≤ tourLen d l := by
  intro l
  induction l with
  | nil => exact le_refl _
  | cons a tl ih =>
    cases tl with
    | nil => exact le_refl _
    | cons b rest =>
      rw [tourLen]
      have := hd a b
      have h2 : (0 : ℚ) ≤ tourLen d (b :: rest) := ih
      linarith

/-- C6: the 2-opt improvement loop terminates on every input, including stop
sets of duplicate locations with zero pairwise distances: because a reversal
is accepted only when it shrinks the tour by strictly more than the (positive)
epsilon, and tour lengths are bounded below by zero, an iteration budget of
`tourLength / eps` already reaches a state from which no further improving
reversal exists — the loop stops there rather than running unboundedly. -/
theorem twoOptLoop_terminates {m : Nat} (d : Fin m → Fin m → ℚ) (pickup dropoff : Fin m)
    (eps : ℚ) (hd : ∀ i j, 0 ≤ d i j) (heps : 0 < eps) :
    ∀ (fuel : Nat) (mid : List (Fin m)),
      tourLen d (pickup :: mid ++ [dropoff]) ≤ fuel * eps →
      findImprove d pickup dropoff eps (twoOptLoop d pickup dropoff eps fuel mid) = none := by
  intro fuel
  induction fuel with
  | zero =>
    intro mid hbound
    rw [twoOptLoop]
    cases hfi : findImprove d pickup dropoff eps mid with
    | none => rfl
    | some mid2 =>
      exfalso
      have h1 := findImprove_improves hfi
      have h2 := tourLen_nonneg hd (pickup :: mid2 ++ [dropoff])
      have h0 : ((0 : Nat) : ℚ) * eps = 0 := by simp
      linarith [hbound, h0]
  | succ fuel ih =>
    intro mid hbound
    rw [twoOptLoop]
    cases hfi : findImprove d pickup dropoff eps mid with
    | none => exact hfi
    | some mid2 =>
      apply ih
      have h1 := findImprove_improves hfi
      have hcast : ((fuel + 1 : Nat) : ℚ) * eps = (fuel : ℚ) * eps + eps := by
        push_cast
        ring
      linarith

/-- Witness for C6 on a concrete instance: two duplicate-location stops with
an all-zero distance matrix; one iteration of budget already reaches a state
with no further improving reversal. -/
theorem twoOptLoop_terminates_witness :
    (∀ i j : Fin 3, (0 : ℚ) ≤ (fun _ _ => (0 : ℚ)) i j) ∧ (0 : ℚ) < 1 ∧
      tourLen (fun _ _ => 0) ((0 : Fin 3) :: [1, 1] ++ [2]) ≤ (1 : Nat) * 1 ∧
      findImprove (m := 3) (fun _ _ => 0) 0 2 1
        (twoOptLoop (fun _ _ => 0) 0 2 1 1 [1, 1]) = none :=
  ⟨fun _ _ => le_refl 0, by decide, by simp [tourLen],
    twoOptLoop_terminates (fun _ _ => 0) 0 2 1 (fun _ _ => le_refl 0) (by decide) 1 [1, 1]
      (by simp [tourLen])⟩

/-! ## PathSolver (C1, C4): supporting lemmas -/

/-- A folded minimum never exceeds its initial value. -/
theorem foldMin_le_init (l : List (WithTop ℚ)) :
    ∀ init : WithTop ℚ, foldMin init l ≤ init := by
  induction l with
  | nil => intro init; exact le_refl _
  | cons x xs ih =>
    intro init
    calc foldMin (min init x) xs ≤ min init x := ih (min init x)
      _ ≤ init := min_le_left _ _

/-- A folded minimum never exceeds any list element. -/
theorem foldMin_le_mem (l : List (WithTop ℚ)) :
    ∀ init : WithTop ℚ, ∀ a ∈ l, foldMin init l ≤ a := by
  induction l with
  | nil => intro _ a ha; cases ha
  | cons x xs ih =>
    intro init a ha
    rcases List.mem_cons.mp ha with rfl | ha
    · calc foldMin (min init a) xs ≤ min init a := foldMin_le_init xs _
        _ ≤ a := min_le_right _ _
    · exact ih (min init x) a ha

/-- A folded minimum is the initial value or one of the list elements. -/
theorem foldMin_eq_init_or_mem (l : List (WithTop ℚ)) :
    ∀ init : WithTop ℚ, foldMin init l = init ∨ foldMin init l ∈ l := by
  induction l with
  | nil => intro _; exact Or.inl rfl
  | cons x xs ih =>
    intro init
    have hstep : foldMin init (x :: xs) = foldMin (min init x) xs := rfl
    rcases ih (min init x) with heq | hmem
    · rcases min_cases init x with ⟨hmin, _⟩ | ⟨hmin, _⟩
      · exact Or.inl (by rw [hstep, heq, hmin])
      · exact Or.inr (List.mem_cons.mpr (Or.inl (by rw [hstep, heq, hmin])))
    · exact Or.inr (List.mem_cons.mpr (Or.inr (by rw [hstep]; exact hmem)))

/-- The selector `argminKey` returns `none` exactly on the empty list. -/
theorem argminKey_eq_none_iff {n : Nat} (key : Fin n → WithTop ℚ) (l : List (Fin n)) :
    argminKey key l = none ↔ l = [] := by
  cases l with
  | nil => simp [argminKey]
  | cons x xs =>
    simp only [argminKey]
    constructor
    · intro hcontra
      cases hxs : argminKey key xs with
      | none => rw [hxs] at hcontra; cases hcontra
      | some y =>
        rw [hxs] at hcontra
        by_cases hle : key x ≤ key y <;> simp [hle] at hcontra
    · intro hcontra; cases hcontra

/-- The selected node is in the scanned list. -/
theorem argminKey_mem {n : Nat} {key : Fin n → WithTop ℚ} :
    ∀ {l : List (Fin n)} {u : Fin n}, argminKey key l = some u → u ∈ l := by
  intro l
  induction l with
  | nil => intro u hu; cases hu
  | cons x xs ih =>
    intro u hu
    rw [argminKey] at hu
    cases hxs : argminKey key xs with
    | none =>
      simp only [hxs] at hu
      cases hu
      exact List.mem_cons_self _ _
    | some y =>
      simp only [hxs] at hu
      by_cases hle : key x ≤ key y
      · rw [if_pos hle] at hu
        cases hu
        exact List.mem_cons_self _ _
      · rw [if_neg hle] at hu
        cases hu
        exact List.mem_cons.mpr (Or.inr (ih hxs))

/-- The selected node has minimal key among the scanned list. -/
theorem argminKey_min {n : Nat} {key : Fin n → WithTop ℚ} :
    ∀ {l : List (Fin n)} {u : Fin n}, argminKey key l = some u →
      ∀ v ∈ l, key u ≤ key v := by
  intro l
  induction l with
  | nil => intro u hu; cases hu
  | cons x xs ih =>
    intro u hu v hv
    rw [argminKey] at hu
    cases hxs : argminKey key xs with
    | none =>
      simp only [hxs] at hu
      cases hu
      have hnil : xs = [] := (argminKey_eq_none_iff key xs).mp hxs
      subst hnil
      rcases List.mem_cons.mp hv with rfl | hv
      · exact le_refl _
      · cases hv
    | some y =>
      simp only [hxs] at hu
      by_cases hle : key x ≤ key y
      · rw [if_pos hle] at hu
        cases hu
        rcases List.mem_cons.mp hv with rfl | hv
        · exact le_refl _
        · exact le_trans hle (ih hxs v hv)
      · rw [if_neg hle] at hu
        cases hu
        rcases List.mem_cons.mp hv with rfl | hv
        · exact le_of_lt (lt_of_not_le hle)
        · exact ih hxs v hv

/-- Membership in the frontier list. -/
theorem mem_frontierList {n : Nat} {st : SolverState n} {v : Fin n} :
    v ∈ frontierList st ↔ v ∉ st.visited ∧ st.dist v ≠ ⊤ := by
  unfold frontierList
  rw [List.mem_filter]
  simp [List.mem_finRange]

/-- Relaxation never increases a distance. -/
theorem relaxed_le {n : Nat} (g : GeoGraph n) (u : Fin n) (dist : Fin n → WithTop ℚ)
    (v : Fin n) : relaxed g u dist v ≤ dist v :=
  foldMin_le_init _ _

/-- Relaxation drives each neighbor's distance at or below the edge
candidate. -/
theorem relaxed_le_edge {n : Nat} (g : GeoGraph n) (u : Fin n) (dist : Fin n → WithTop ℚ)
    {v : Fin n} {w : ℚ} (he : (v, w) ∈ g.adj u) :
    relaxed g u dist v ≤ dist u + (w : WithTop ℚ) := by
  apply foldMin_le_mem
  apply List.mem_filterMap.mpr
  exact ⟨(v, w), he, by simp⟩

/-- A relaxed distance is the old distance or an edge candidate. -/
theorem relaxed_eq_or_edge {n : Nat} (g : GeoGraph n) (u : Fin n)
    (dist : Fin n → WithTop ℚ) (v : Fin n) :
    relaxed g u dist v = dist v ∨
      ∃ w : ℚ, (v, w) ∈ g.adj u ∧ relaxed g u dist v = dist u + (w : WithTop ℚ) := by
  unfold relaxed
  rcases foldMin_eq_init_or_mem
      ((g.adj u).filterMap fun e => if e.1 = v then some (dist u + (e.2 : WithTop ℚ)) else none)
      (dist v) with heq | hmem
  · exact Or.inl heq
  · rcases List.mem_filterMap.mp hmem with ⟨e, hel, hee⟩
    by_cases hv : e.1 = v
    · rw [if_pos hv] at hee
      refine Or.inr ⟨e.2, ?_, (Option.some_inj.mp hee).symm⟩
      rw [← hv]
      exact hel
    · rw [if_neg hv] at hee
      cases hee

/-- Walks extend along an edge at the far end. -/
theorem IsWalkCost.snoc {n : Nat} {g : GeoGraph n} {s u v : Fin n} {c w : ℚ}
    (walk : IsWalkCost g s u c) (he : (v, w) ∈ g.adj u) :
    IsWalkCost g s v (c + w) := by
  induction walk with
  | refl x =>
    have hz : (0 : ℚ) + w = w + 0 := by ring
    rw [hz]
    exact IsWalkCost.cons he (IsWalkCost.refl v)
  | cons he2 rest ih =>
    rename_i u2 v2 t2 w2 c2
    have hz : w2 + c2 + w = w2 + (c2 + w) := by ring
    rw [hz]
    exact IsWalkCost.cons he2 (ih he)

/-- A consistent heuristic drops by at most a walk's cost along the walk. -/
theorem walk_heuristic_bound {n : Nat} {g : GeoGraph n} {h : Fin n → ℚ}
    (hc : Consistent g h) {x y : Fin n} {c : ℚ} (walk : IsWalkCost g x y c) :
    h x ≤ c + h y := by
  induction walk with
  | refl u => simp
  | cons he rest ih =>
    rename_i u2 v2 t2 w2 c2
    have h1 := hc u2 (v2, w2) he
    simp only at h1
    linarith

/-- The solver invariant: the source's distance stays 0 (or below, which
non-negative walks forbid exceeding); every finite distance is the cost of
an actual walk from the source; every visited node's distance is at or below
every walk cost to it; every edge out of a visited node is relaxed; visited
nodes have finite distance; the step trace holds one entry per expansion. -/
structure SolverInv {n : Nat} (g : GeoGraph n) (s : Fin n) (st : SolverState n) : Prop where
  source_le : st.dist s ≤ 0
  attained : ∀ v : Fin n, ∀ c : ℚ, st.dist v = (c : WithTop ℚ) → IsWalkCost g s v c
  settled : ∀ u ∈ st.visited, ∀ c : ℚ, IsWalkCost g s u c → st.dist u ≤ (c : WithTop ℚ)
  closure : ∀ u ∈ st.visited, ∀ e ∈ g.adj u, st.dist e.1 ≤ st.dist u + (e.2 : WithTop ℚ)
  visited_fin : ∀ u ∈ st.visited, st.dist u ≠ ⊤
  steps_card : st.steps = st.visited.card

/-- A finite upper bound rules out an infinite distance. -/
theorem ne_top_of_le_coe {x : WithTop ℚ} {c : ℚ} (hx : x ≤ (c : WithTop ℚ)) : x ≠ ⊤ := by
  intro htop
  rw [htop] at hx
  simpa using hx

/-- The popped node's priority is bounded by every walk from a finitely
distanced node to any unvisited node: the walk must first leave the visited
region, and as soon as it does, the frontier minimality of the pop plus the
heuristic's consistency along the rest of the walk give the bound. -/
theorem pop_bound_aux {n : Nat} {g : GeoGraph n} {h : Fin n → ℚ} {s : Fin n}
    {st : SolverState n} (hc : Consistent g h) (inv : SolverInv g s st) {u : Fin n}
    (hu : argminKey (fun v => st.dist v + (h v : WithTop ℚ)) (frontierList st) = some u) :
    ∀ {x t : Fin n} {c : ℚ}, IsWalkCost g x t c → t ∉ st.visited →
      ∀ dx : ℚ, st.dist x ≤ (dx : WithTop ℚ) →
        st.dist u + (h u : WithTop ℚ) ≤ ((dx + c + h t : ℚ) : WithTop ℚ) := by
  intro x t c walk
  induction walk with
  | refl z =>
    intro hz dx hdx
    have hzf : z ∈ frontierList st :=
      mem_frontierList.mpr ⟨hz, ne_top_of_le_coe hdx⟩
    have hmin := argminKey_min hu z hzf
    calc st.dist u + (h u : WithTop ℚ)
        ≤ st.dist z + (h z : WithTop ℚ) := hmin
      _ ≤ (dx : WithTop ℚ) + (h z : WithTop ℚ) := add_le_add_right hdx _
      _ = ((dx + h z : ℚ) : WithTop ℚ) := by push_cast; rfl
      _ ≤ ((dx + 0 + h z : ℚ) : WithTop ℚ) := by rw [WithTop.coe_le_coe]; linarith
  | cons he rest ih =>
    rename_i x2 v2 t2 w2 c2
    intro ht dx hdx
    by_cases hx : x2 ∈ st.visited
    · have hrel := inv.closure x2 hx (v2, w2) he
      have hv2 : st.dist v2 ≤ ((dx + w2 : ℚ) : WithTop ℚ) := by
        calc st.dist v2 ≤ st.dist x2 + (w2 : WithTop ℚ) := hrel
          _ ≤ (dx : WithTop ℚ) + (w2 : WithTop ℚ) := add_le_add_right hdx _
          _ = ((dx + w2 : ℚ) : WithTop ℚ) := by push_cast; rfl
      have hih := ih ht (dx + w2) hv2
      calc st.dist u + (h u : WithTop ℚ)
          ≤ ((dx + w2 + c2 + h t2 : ℚ) : WithTop ℚ) := hih
        _ = ((dx + (w2 + c2) + h t2 : ℚ) : WithTop ℚ) := by rw [WithTop.coe_eq_coe]; ring
    · have hxf : x2 ∈ frontierList st :=
        mem_frontierList.mpr ⟨hx, ne_top_of_le_coe hdx⟩
      have hmin := argminKey_min hu x2 hxf
      have hwb : h x2 ≤ (w2 + c2) + h t2 := walk_heuristic_bound hc (IsWalkCost.cons he rest)
      calc st.dist u + (h u : WithTop ℚ)
          ≤ st.dist x2 + (h x2 : WithTop ℚ) := hmin
        _ ≤ (dx : WithTop ℚ) + (h x2 : WithTop ℚ) := add_le_add_right hdx _
        _ = ((dx + h x2 : ℚ) : WithTop ℚ) := by push_cast; rfl
        _ ≤ ((dx + (w2 + c2) + h t2 : ℚ) : WithTop ℚ) := by
            rw [WithTop.coe_le_coe]
            linarith

/-- When the solver pops a node, that node's distance is already at or below
the cost of every walk reaching it from the source. -/
theorem popped_settled {n : Nat} {g : GeoGraph n} {h : Fin n → ℚ} {s : Fin n}
    {st : SolverState n} (hc : Consistent g h) (inv : SolverInv g s st) {u : Fin n}
    (hu : argminKey (fun v => st.dist v + (h v : WithTop ℚ)) (frontierList st) = some u) :
    ∀ c : ℚ, IsWalkCost g s u c → st.dist u ≤ (c : WithTop ℚ) := by
  intro c walk
  have humem := argminKey_mem hu
  have hufr := mem_frontierList.mp humem
  have hs0 : st.dist s ≤ ((0 : ℚ) : WithTop ℚ) := by
    simpa using inv.source_le
  have hb := pop_bound_aux hc inv hu walk hufr.1 0 hs0
  have hb2 : st.dist u + (h u : WithTop ℚ) ≤ ((c : ℚ) : WithTop ℚ) + ((h u : ℚ) : WithTop ℚ) := by
    calc st.dist u + (h u : WithTop ℚ) ≤ ((0 + c + h u : ℚ) : WithTop ℚ) := hb
      _ = ((c : ℚ) : WithTop ℚ) + ((h u : ℚ) : WithTop ℚ) := by push_cast; rw [zero_add]
  exact (WithTop.add_le_add_iff_right (WithTop.coe_ne_top)).mp hb2

/-- One solver iteration preserves the invariant (for any consistent
heuristic: relaxation cannot improve on a settled node, so expanded
distances are final). -/
theorem solverStep_inv {n : Nat} {g : GeoGraph n} {h : Fin n → ℚ} {s : Fin n}
    {st st2 : SolverState n} (hc : Consistent g h) (inv : SolverInv g s st)
    (hstep : solverStep g h st = some st2) : SolverInv g s st2 := by
  unfold solverStep at hstep
  cases hu : argminKey (fun v => st.dist v + (h v : WithTop ℚ)) (frontierList st) with
  | none => rw [hu] at hstep; cases hstep
  | some u =>
    rw [hu] at hstep
    cases hstep
    have hufr := mem_frontierList.mp (argminKey_mem hu)
    obtain ⟨du, hdu⟩ : ∃ q : ℚ, st.dist u = (q : WithTop ℚ) := by
      cases hx : st.dist u with
      | top => exact absurd hx hufr.2
      | coe q => exact ⟨q, rfl⟩
    have hwalku : IsWalkCost g s u du := inv.attained u du hdu
    have hpop := popped_settled hc inv hu
    -- relaxation leaves every already-expanded node's distance unchanged
    have hunch : ∀ x ∈ insert u st.visited, relaxed g u st.dist x = st.dist x := by
      intro x hx
      have hsettled : ∀ c : ℚ, IsWalkCost g s x c → st.dist x ≤ (c : WithTop ℚ) := by
        rcases Finset.mem_insert.mp hx with rfl | hxold
        · exact hpop
        · exact inv.settled x hxold
      rcases relaxed_eq_or_edge g u st.dist x with heq | ⟨w, hew, heq⟩
      · exact heq
      · refine le_antisymm (relaxed_le g u st.dist x) ?_
        rw [heq, hdu]
        have : IsWalkCost g s x (du + w) := hwalku.snoc hew
        calc st.dist x ≤ ((du + w : ℚ) : WithTop ℚ) := hsettled (du + w) this
          _ = ((du : ℚ) : WithTop ℚ) + ((w : ℚ) : WithTop ℚ) := by push_cast; rfl
    refine ⟨?_, ?_, ?_, ?_, ?_, ?_⟩
    · calc relaxed g u st.dist s ≤ st.dist s := relaxed_le g u st.dist s
        _ ≤ 0 := inv.source_le
    · intro v c hv
      dsimp only at hv
      rcases relaxed_eq_or_edge g u st.dist v with heq | ⟨w, hew, heq⟩
      · exact inv.attained v c (by rw [← heq]; exact hv)
      · rw [heq, hdu] at hv
        have hcast : ((du : ℚ) : WithTop ℚ) + ((w : ℚ) : WithTop ℚ) =
            ((du + w : ℚ) : WithTop ℚ) := by push_cast; rfl
        rw [hcast] at hv
        have : c = du + w := by exact_mod_cast hv.symm
        rw [this]
        exact hwalku.snoc hew
    · intro x hx c hwalk
      dsimp only at hx ⊢
      rw [hunch x hx]
      rcases Finset.mem_insert.mp hx with rfl | hxold
      · exact hpop c hwalk
      · exact inv.settled x hxold c hwalk
    · intro x hx e he
      dsimp only at hx ⊢
      rcases Finset.mem_insert.mp hx with rfl | hxold
      · have h1 : relaxed g x st.dist e.1 ≤ st.dist x + (e.2 : WithTop ℚ) :=
          relaxed_le_edge g x st.dist he
        rw [hunch x (Finset.mem_insert_self x st.visited)]
        exact h1
      · calc relaxed g u st.dist e.1 ≤ st.dist e.1 := relaxed_le g u st.dist e.1
          _ ≤ st.dist x + (e.2 : WithTop ℚ) := inv.closure x hxold e he
          _ = relaxed g u st.dist x + (e.2 : WithTop ℚ) := by
              rw [hunch x (Finset.mem_insert_of_mem hxold)]
    · intro x hx
      dsimp only at hx ⊢
      rw [hunch x hx]
      rcases Finset.mem_insert.mp hx with rfl | hxold
      · exact hufr.2
      · exact inv.visited_fin x hxold
    · have hnm : u ∉ st.visited := hufr.1
      dsimp only
      rw [Finset.card_insert_of_not_mem hnm, inv.steps_card]

/-- The initial state satisfies the invariant. -/
theorem initState_inv {n : Nat} (g : GeoGraph n) (s : Fin n) :
    SolverInv g s (initState s) := by
  refine ⟨?_, ?_, ?_, ?_, ?_, ?_⟩
  · simp [initState]
  · intro v c hv
    unfold initState at hv
    dsimp only at hv
    by_cases hvs : v = s
    · subst hvs
      rw [if_pos rfl] at hv
      have : c = 0 := by exact_mod_cast hv.symm
      rw [this]
      exact IsWalkCost.refl v
    · rw [if_neg hvs] at hv
      cases hv
  · intro x hx
    cases hx
  · intro x hx
    cases hx
  · intro x hx
    cases hx
  · rfl

/-- Running the solver preserves the invariant. -/
theorem runSolver_inv {n : Nat} {g : GeoGraph n} {h : Fin n → ℚ} {s : Fin n}
    (hc : Consistent g h) :
    ∀ (fuel : Nat) (st : SolverState n), SolverInv g s st →
      SolverInv g s (runSolver g h fuel st) := by
  intro fuel
  induction fuel with
  | zero => intro st inv; exact inv
  | succ fuel ih =>
    intro st inv
    rw [runSolver]
    cases hstep : solverStep g h st with
    | none => exact inv
    | some st2 => exact ih st2 (solverStep_inv hc inv hstep)

/-- A successful solver iteration grows the visited set by exactly the
popped node. -/
theorem solverStep_card {n : Nat} {g : GeoGraph n} {h : Fin n → ℚ}
    {st st2 : SolverState n} (hstep : solverStep g h st = some st2) :
    st2.visited.card = st.visited.card + 1 := by
  unfold solverStep at hstep
  cases hu : argminKey (fun v => st.dist v + (h v : WithTop ℚ)) (frontierList st) with
  | none => rw [hu] at hstep; cases hstep
  | some u =>
    rw [hu] at hstep
    cases hstep
    have hufr := mem_frontierList.mp (argminKey_mem hu)
    exact Finset.card_insert_of_not_mem hufr.1

/-- With enough fuel the frontier is flushed: the run ends in a state where
no further iteration applies. -/
theorem runSolver_flushed {n : Nat} (g : GeoGraph n) (h : Fin n → ℚ) :
    ∀ (fuel : Nat) (st : SolverState n), n ≤ st.visited.card + fuel →
      solverStep g h (runSolver g h fuel st) = none := by
  intro fuel
  induction fuel with
  | zero =>
    intro st hcard
    have hcardle : st.visited.card ≤ n := by
      simpa using Finset.card_le_univ st.visited
    have huniv : st.visited = Finset.univ := by
      apply Finset.eq_univ_of_card
      simp only [Fintype.card_fin]
      omega
    unfold runSolver solverStep
    have hempty : frontierList st = [] := by
      apply List.eq_nil_iff_forall_not_mem.mpr
      intro v hv
      exact (mem_frontierList.mp hv).1 (huniv ▸ Finset.mem_univ v)
    rw [hempty]
    rfl
  | succ fuel ih =>
    intro st hcard
    rw [runSolver]
    cases hstep : solverStep g h st with
    | none => exact hstep
    | some st2 =>
      apply ih
      rw [solverStep_card hstep]
      omega

/-- The A* run ends with a flushed frontier. -/
theorem astarRun_flushed {n : Nat} (g : GeoGraph n) (h : Fin n → ℚ) (s : Fin n) :
    solverStep g h (astarRun g h s) = none := by
  apply runSolver_flushed
  simp [initState]

/-- The A* run satisfies the invariant. -/
theorem astarRun_inv {n : Nat} {g : GeoGraph n} {h : Fin n → ℚ} (hc : Consistent g h)
    (s : Fin n) : SolverInv g s (astarRun g h s) :=
  runSolver_inv hc n (initState s) (initState_inv g s)

/-- After a flushed run, every node off the visited set is at infinite
distance. -/
theorem flushed_unvisited_top {n : Nat} {g : GeoGraph n} {h : Fin n → ℚ}
    {st : SolverState n} (hflush : solverStep g h st = none) :
    ∀ v : Fin n, v ∉ st.visited → st.dist v = ⊤ := by
  intro v hv
  unfold solverStep at hflush
  cases hu : argminKey (fun v => st.dist v + (h v : WithTop ℚ)) (frontierList st) with
  | some u => rw [hu] at hflush; cases hflush
  | none =>
    have hempty := (argminKey_eq_none_iff _ _).mp hu
    by_contra htop
    have : v ∈ frontierList st := mem_frontierList.mpr ⟨hv, htop⟩
    rw [hempty] at this
    cases this

/-- For non-negative weights the zero heuristic (Dijkstra's priority) is
consistent. -/
theorem consistent_zero {n : Nat} {g : GeoGraph n} (hw : g.Nonneg) :
    Consistent g (fun _ => 0) := by
  intro u e he
  have h1 := hw u e he
  simp only
  linarith

/-- After a flushed run, finite distance propagates along every edge of a
walk: reachable nodes keep finite distances. -/
theorem flushed_reachable_fin {n : Nat} {g : GeoGraph n} {h : Fin n → ℚ} {s : Fin n}
    {st : SolverState n} (inv : SolverInv g s st) (hflush : solverStep g h st = none) :
    ∀ {x t : Fin n} {c : ℚ}, IsWalkCost g x t c → st.dist x ≠ ⊤ → st.dist t ≠ ⊤ := by
  intro x t c walk
  induction walk with
  | refl z => exact id
  | cons he rest ih =>
    rename_i u2 v2 t2 w2 c2
    intro hx
    have hvis : u2 ∈ st.visited := by
      by_contra hn
      exact hx (flushed_unvisited_top hflush u2 hn)
    obtain ⟨du, hdu⟩ : ∃ q : ℚ, st.dist u2 = (q : WithTop ℚ) := by
      cases hz : st.dist u2 with
      | top => exact absurd hz hx
      | coe q => exact ⟨q, rfl⟩
    have hcl := inv.closure u2 hvis (v2, w2) he
    have hfin : st.dist v2 ≠ ⊤ := by
      apply ne_top_of_le_coe (c := du + w2)
      calc st.dist v2 ≤ st.dist u2 + ((w2 : ℚ) : WithTop ℚ) := hcl
        _ = ((du + w2 : ℚ) : WithTop ℚ) := by rw [hdu]; push_cast; rfl
    exact ih hfin

/-- After the A* run, a node is visited (was expanded) exactly when it is
reachable from the source. -/
theorem astar_visited_iff_reachable {n : Nat} {g : GeoGraph n} {h : Fin n → ℚ}
    (hc : Consistent g h) (s : Fin n) :
    ∀ v : Fin n, v ∈ (astarRun g h s).visited ↔ Reachable g s v := by
  intro v
  have inv := astarRun_inv hc s
  have hflush := astarRun_flushed g h s
  constructor
  · intro hv
    have hfin := inv.visited_fin v hv
    obtain ⟨c, hcv⟩ : ∃ q : ℚ, (astarRun g h s).dist v = (q : WithTop ℚ) := by
      cases hz : (astarRun g h s).dist v with
      | top => exact absurd hz hfin
      | coe q => exact ⟨q, rfl⟩
    exact ⟨c, inv.attained v c hcv⟩
  · rintro ⟨c, walk⟩
    have hsfin : (astarRun g h s).dist s ≠ ⊤ :=
      ne_top_of_le_coe (c := 0) (by simpa using inv.source_le)
    have htfin := flushed_reachable_fin inv hflush walk hsfin
    by_contra hn
    exact htfin (flushed_unvisited_top hflush v hn)

/-- The A* run's reported distance at a reachable target is the cost of an
actual walk and a lower bound of all walk costs: the shortest-path
distance. -/
theorem astar_dist_spec {n : Nat} {g : GeoGraph n} {h : Fin n → ℚ}
    (hc : Consistent g h) (s t : Fin n) (hr : Reachable g s t) :
    ∃ c : ℚ, (astarRun g h s).dist t = (c : WithTop ℚ) ∧ IsWalkCost g s t c ∧
      ∀ c2 : ℚ, IsWalkCost g s t c2 → c ≤ c2 := by
  have inv := astarRun_inv hc s
  have hflush := astarRun_flushed g h s
  have hvis : t ∈ (astarRun g h s).visited := (astar_visited_iff_reachable hc s t).mpr hr
  have hfin := inv.visited_fin t hvis
  obtain ⟨c, hcv⟩ : ∃ q : ℚ, (astarRun g h s).dist t = (q : WithTop ℚ) := by
    cases hz : (astarRun g h s).dist t with
    | top => exact absurd hz hfin
    | coe q => exact ⟨q, rfl⟩
  refine ⟨c, hcv, inv.attained t c hcv, ?_⟩
  intro c2 walk2
  have hle := inv.settled t hvis c2 walk2
  rw [hcv] at hle
  exact_mod_cast hle

/-- C1: on every graph with non-negative edge weights, for every
source/target pair with the target reachable, the Dijkstra solver and the
A* solver driven by any consistent heuristic (the spec's admissible and
consistent haversine-to-target) report the same total path distance. -/
theorem dijkstra_astar_same_total_distance {n : Nat} (g : GeoGraph n) (h : Fin n → ℚ)
    (s t : Fin n) (hw : g.Nonneg) (hc : Consistent g h) (hr : Reachable g s t) :
    (dijkstraRun g s).dist t = (astarRun g h s).dist t := by
  obtain ⟨cD, hD, wD, minD⟩ := astar_dist_spec (consistent_zero hw) s t hr
  obtain ⟨cA, hA, wA, minA⟩ := astar_dist_spec hc s t hr
  have hdij : dijkstraRun g s = astarRun g (fun _ => 0) s := rfl
  rw [hdij, hD, hA, WithTop.coe_eq_coe]
  exact le_antisymm (minD cA wA) (minA cD wD)

/-- Witness for C1 at the sample graph (with the zero heuristic, which is
consistent because the weights are non-negative). -/
theorem dijkstra_astar_same_total_distance_witness :
    gWitness.Nonneg ∧ Consistent gWitness (fun _ => 0) ∧ Reachable gWitness 0 2 ∧
      (dijkstraRun gWitness 0).dist 2 = (astarRun gWitness (fun _ => 0) 0).dist 2 :=
  ⟨by unfold GeoGraph.Nonneg; decide,
    consistent_zero (by unfold GeoGraph.Nonneg; decide),
    ⟨1 + (2 + 0),
      IsWalkCost.cons (show ((1 : Fin 3), (1 : ℚ)) ∈ gWitness.adj 0 by decide)
        (IsWalkCost.cons (show ((2 : Fin 3), (2 : ℚ)) ∈ gWitness.adj 1 by decide)
          (IsWalkCost.refl 2))⟩,
    dijkstra_astar_same_total_distance gWitness (fun _ => 0) 0 2
      (by unfold GeoGraph.Nonneg; decide)
      (consistent_zero (by unfold GeoGraph.Nonneg; decide))
      ⟨1 + (2 + 0),
        IsWalkCost.cons (show ((1 : Fin 3), (1 : ℚ)) ∈ gWitness.adj 0 by decide)
          (IsWalkCost.cons (show ((2 : Fin 3), (2 : ℚ)) ∈ gWitness.adj 1 by decide)
            (IsWalkCost.refl 2))⟩⟩

/-- C4: on every input graph with non-negative weights and every source, the
A* solver (any consistent heuristic) expands at most as many nodes as the
Dijkstra solver — its step-trace length is never larger.  (Both solvers run
the spec's primary termination condition, stopping when the frontier
empties, so each expands exactly the nodes reachable from the source and
the two counts coincide.) -/
theorem astar_expansions_le_dijkstra {n : Nat} (g : GeoGraph n) (h : Fin n → ℚ)
    (s : Fin n) (hw : g.Nonneg) (hc : Consistent g h) :
    (astarRun g h s).steps ≤ (dijkstraRun g s).steps := by
  have hdij : dijkstraRun g s = astarRun g (fun _ => 0) s := rfl
  rw [hdij, (astarRun_inv hc s).steps_card, (astarRun_inv (consistent_zero hw) s).steps_card]
  have hvv : (astarRun g h s).visited = (astarRun g (fun _ => 0) s).visited := by
    ext v
    rw [astar_visited_iff_reachable hc s v,
      astar_visited_iff_reachable (consistent_zero hw) s v]
  rw [hvv]

/-- Witness for C4 at the sample graph. -/
theorem astar_expansions_le_dijkstra_witness :
    gWitness.Nonneg ∧ Consistent gWitness (fun _ => 0) ∧
      (astarRun gWitness (fun _ => 0) 0).steps ≤ (dijkstraRun gWitness 0).steps :=
  ⟨by unfold GeoGraph.Nonneg; decide,
    consistent_zero (by unfold GeoGraph.Nonneg; decide),
    astar_expansions_le_dijkstra gWitness (fun _ => 0) 0
      (by unfold GeoGraph.Nonneg; decide)
      (consistent_zero (by unfold GeoGraph.Nonneg; decide))⟩

end CabAgent
